import Mathlib

/-!
Verification of the jsLPSolver external-solver shell and typing layer.

The development shallowly embeds the two source files:
* the external lp_solve shell (`clean_data` and the `solve` Promise
  executor), embedded as pure functions over `List Char` / explicit
  action traces;
* the typing declarations of `main.d.ts` (`Solve`, `ReformatLP`,
  `lastSolvedModel`), whose implementations are absent from the
  repository snapshot and are therefore modelled from the spec where a
  claim needs their behaviour.
-/

/-! ## External solver shell: the `solve` Promise executor

The source builds `new Promise(function(res, rej){...})` whose body
checks, in order: the browser guard, `model.external`, `.binPath`,
`.args`, `.tempName`, calling `rej(message)` for each violation without
returning.  No file is written, no process spawned, `res` is never
called.  We embed the executor as the ordered trace of effectful calls
it makes, plus a flag recording whether it aborted with a thrown
TypeError (a JavaScript property access on a missing `external`). -/

/-- The stages of the spec's `ExternalError` taxonomy (spec section 6).
Declared from the spec's words to state claim C3 against the code. -/
inductive Stage where
  | Write
  | Spawn
  | Parse
deriving DecidableEq, Repr

/-- The spec's structured external-boundary error value (spec section 6). -/
structure ExternalError where
  stage : Stage
  detail : String
deriving DecidableEq, Repr

/-- A JavaScript value passed to the Promise reject callback: the source
passes string literals; the spec describes structured `ExternalError`
objects.  Both live in this sum so the two can be compared. -/
inductive JSVal where
  | str (s : String)
  | extErr (e : ExternalError)
deriving DecidableEq, Repr

/-- Whether a rejected value is a structured `ExternalError` object. -/
def JSVal.isExtErr : JSVal → Bool
  | .extErr _ => true
  | .str _ => false

/-- `model.external` as the source reads it: each field may be absent
(JavaScript `undefined`).  `binPath` and `tempName` are strings (falsy
when empty), `args` is an array (always truthy when present). -/
structure External where
  binPath : Option String
  args : Option (List String)
  tempName : Option String
deriving DecidableEq, Repr

/-- The slice of the model the `solve` executor reads: only `external`. -/
structure ExtModel where
  external : Option External
deriving DecidableEq, Repr

/-- JavaScript truthiness of an optional string field: absent and `""`
are falsy. -/
def truthyStr : Option String → Bool
  | some s => s ≠ ""
  | none => false

/-- An effectful call the executor could make.  The source's executor
only ever calls `rej`; `writeFileCall` and `spawnCall` are the effects
claim C1 says happen, so they are constructors of the trace alphabet. -/
inductive EffCall where
  | rejectCall (v : JSVal)
  | writeFileCall (path contents : String)
  | spawnCall (bin : String) (args : List String)
deriving DecidableEq, Repr

/-- Source: `rej("Function Not Available in Browser")`. -/
def msgBrowser : String := "Function Not Available in Browser"

/-- Source: the `rej` message for a missing `model.external`. -/
def msgExternal : String :=
  "Data for this function must be contained in the 'external' attribute. Not seeing anything there."

/-- Source: the `rej` message for a missing `binPath`. -/
def msgBinPath : String :=
  "No Executable | Binary path provided in arguments as 'binPath'"

/-- Source: the `rej` message for a missing `args`. -/
def msgArgs : String :=
  "No arguments array for cli | bash provided on 'args' attribute"

/-- Source: the `rej` message for a missing `tempName`. -/
def msgTempName : String :=
  "No 'tempName' given. This is necessary to produce a staging file for the solver to operate on"

/-- The `solve` Promise executor's run, embedded as the ordered list of
effectful calls it makes plus whether it aborted with a thrown
TypeError.  Mirrors the source line by line: browser guard (`rej` and
fall through), the pure `Reformat` call (no trace entry), then the four
field checks, each a `rej` without a return.  When `model.external` is
absent, the check `if(!model.external.binPath)` dereferences
`undefined`: the executor throws there, so the remaining checks never
run (flag `true`). -/
def solveTrace (browser : Bool) (m : ExtModel) : List EffCall × Bool :=
  let t0 : List EffCall :=
    if browser then [EffCall.rejectCall (JSVal.str msgBrowser)] else []
  match m.external with
  | none => (t0 ++ [EffCall.rejectCall (JSVal.str msgExternal)], true)
  | some ext =>
      let t1 := t0 ++
        (if truthyStr ext.binPath then [] else [EffCall.rejectCall (JSVal.str msgBinPath)])
      let t2 := t1 ++
        (if ext.args.isSome then [] else [EffCall.rejectCall (JSVal.str msgArgs)])
      let t3 := t2 ++
        (if truthyStr ext.tempName then [] else [EffCall.rejectCall (JSVal.str msgTempName)])
      (t3, false)

/-- How a Promise settles: pending (neither callback ever called),
rejected with the first value passed to `rej`, or rejected with a
thrown exception (only when nothing settled it earlier). -/
inductive PromiseOutcome where
  | pending
  | rejectedWith (v : JSVal)
  | rejectedThrown
deriving DecidableEq, Repr

/-- The first value passed to `rej` in a trace, if any. -/
def firstReject : List EffCall → Option JSVal
  | [] => none
  | EffCall.rejectCall v :: _ => some v
  | _ :: t => firstReject t

/-- Promise settlement semantics over an executor run: the first `rej`
wins; a later throw is swallowed; a throw with no earlier settlement
rejects with the exception; otherwise the Promise stays pending. -/
def settleOf : List EffCall × Bool → PromiseOutcome
  | (acts, threw) =>
      match firstReject acts with
      | some v => PromiseOutcome.rejectedWith v
      | none => if threw then PromiseOutcome.rejectedThrown else PromiseOutcome.pending

/-- The Promise returned by `exports.solve`, as a settlement outcome. -/
def solvePromise (browser : Bool) (m : ExtModel) : PromiseOutcome :=
  settleOf (solveTrace browser m)

/-- The complete external model of the source's own usage comment:
`binPath`, `args` and `tempName` all supplied and truthy. -/
def lpModelC1 : ExtModel :=
  ⟨some ⟨some "C:/lpsolve/lp_solve.exe", some ["-S2"], some "C:/temp/out.txt"⟩⟩

/-- C1: on a model with all `external` fields supplied, outside the
browser, the executor performs no effect at all — it writes no file,
spawns no process, and never settles the Promise — contradicting the
claimed write/spawn/parse pipeline.  The code evaluated at the failing
input: the trace is empty and the Promise stays pending. -/
theorem solve_external_pathway_missing :
    solveTrace false lpModelC1 = ([], false) ∧
      solvePromise false lpModelC1 = PromiseOutcome.pending := by
  decide

/-- C9: with a global `window` defined, the Promise rejects with the
string "Function Not Available in Browser" for every model: the browser
guard's `rej` is the first settlement, and everything after it (further
`rej` calls or a thrown TypeError) cannot re-settle the Promise. -/
theorem solve_browser_rejects (m : ExtModel) :
    solvePromise true m = PromiseOutcome.rejectedWith (JSVal.str msgBrowser) := by
  cases m with
  | mk ext =>
      cases ext with
      | none => rfl
      | some e => simp [solvePromise, solveTrace, settleOf, firstReject]

/-- C2 counterexample: with `external` missing entirely (and no
browser), the executor rejects once and then throws dereferencing
`model.external.binPath`; the `binPath` check itself (and every later
check) never runs, so the trace holds no `binPath` rejection. -/
theorem solve_missing_external_halts :
    solveTrace false ⟨none⟩ = ([EffCall.rejectCall (JSVal.str msgExternal)], true) ∧
      EffCall.rejectCall (JSVal.str msgBinPath) ∉ (solveTrace false ⟨none⟩).1 := by
  decide

/-- C2 as amended: when `external` is present, each of the `binPath`,
`args` and `tempName` checks executes regardless of earlier failures —
its rejection appears in the trace exactly when its field is falsy, and
the executor finishes without throwing; but when `external` itself is
missing, the executor rejects once and then throws a TypeError, so the
subsequent field checks do not execute. -/
theorem solve_field_checks_amended (browser : Bool) (ext : External) :
    (EffCall.rejectCall (JSVal.str msgBinPath) ∈ (solveTrace browser ⟨some ext⟩).1
        ↔ truthyStr ext.binPath = false)
    ∧ (EffCall.rejectCall (JSVal.str msgArgs) ∈ (solveTrace browser ⟨some ext⟩).1
        ↔ ext.args.isSome = false)
    ∧ (EffCall.rejectCall (JSVal.str msgTempName) ∈ (solveTrace browser ⟨some ext⟩).1
        ↔ truthyStr ext.tempName = false)
    ∧ (solveTrace browser ⟨some ext⟩).2 = false
    ∧ (solveTrace browser ⟨none⟩).2 = true
    ∧ EffCall.rejectCall (JSVal.str msgBinPath) ∉ (solveTrace browser ⟨none⟩).1 := by
  cases browser <;> cases hb : truthyStr ext.binPath <;> cases ha : ext.args.isSome <;>
    cases ht : truthyStr ext.tempName <;> (simp only [solveTrace, hb, ha, ht]; decide)

/-- The five string rejections the executor can issue, as trace calls. -/
def allRejects : List EffCall :=
  [EffCall.rejectCall (JSVal.str msgBrowser), EffCall.rejectCall (JSVal.str msgExternal),
    EffCall.rejectCall (JSVal.str msgBinPath), EffCall.rejectCall (JSVal.str msgArgs),
    EffCall.rejectCall (JSVal.str msgTempName)]

/-- Every call in an executor trace is one of the five string rejections. -/
theorem solveTrace_subset (browser : Bool) (m : ExtModel) :
    (solveTrace browser m).1 ⊆ allRejects := by
  rcases m with ⟨_ | ⟨b, a, t⟩⟩
  · cases browser <;> simp only [solveTrace, List.nil_append] <;> decide
  · cases browser <;> cases hb : truthyStr b <;> cases ha : a.isSome <;>
      cases ht : truthyStr t <;>
        simp only [solveTrace, hb, ha, ht, if_true, if_false, Bool.false_eq_true] <;> decide

/-- C3 counterexample: with `external` missing, the Promise rejects with
the plain string message — a value that is not an `ExternalError`
object at all (no `stage`, no `detail`). -/
theorem solve_reject_plain_string :
    solvePromise false ⟨none⟩ = PromiseOutcome.rejectedWith (JSVal.str msgExternal) ∧
      (JSVal.str msgExternal).isExtErr = false := by
  decide

/-- C3 as amended: every error the `solve` executor reports is a plain
string, never a structured `ExternalError` with a Write/Spawn/Parse
stage; the possible values are exactly the browser message and the four
missing-field messages (the Write/Spawn/Parse operations are never
performed, so no error at those stages can arise). -/
theorem solve_reject_values_amended (browser : Bool) (m : ExtModel) (v : JSVal)
    (h : EffCall.rejectCall v ∈ (solveTrace browser m).1) :
    v.isExtErr = false ∧
      (v = JSVal.str msgBrowser ∨ v = JSVal.str msgExternal ∨ v = JSVal.str msgBinPath ∨
        v = JSVal.str msgArgs ∨ v = JSVal.str msgTempName) := by
  have hsub := solveTrace_subset browser m h
  simp only [allRejects, List.mem_cons, List.mem_singleton, List.not_mem_nil, or_false,
    EffCall.rejectCall.injEq] at hsub
  rcases hsub with rfl | rfl | rfl | rfl | rfl <;> exact ⟨rfl, by tauto⟩

/-- Witness for the amended C3 theorem at a concrete input: the
missing-`external` rejection is a plain string among the five. -/
theorem solve_reject_values_amended_witness :
    (JSVal.str msgExternal).isExtErr = false ∧
      (JSVal.str msgExternal = JSVal.str msgBrowser ∨
        JSVal.str msgExternal = JSVal.str msgExternal ∨
        JSVal.str msgExternal = JSVal.str msgBinPath ∨
        JSVal.str msgExternal = JSVal.str msgArgs ∨
        JSVal.str msgExternal = JSVal.str msgTempName) :=
  solve_reject_values_amended false ⟨none⟩ (JSVal.str msgExternal) (by decide)

/-! ## `clean_data`

The source pipeline over the raw solver output string:
`data.replace("\\r\\n","\r\n")` (first occurrence of the four-character
literal backslash-r-backslash-n), `.split("\r\n")`, `.filter` dropping
lines that end in `" 0"` (regex `" 0$"`) or whose last character is not
a digit (regex `"\d$"`), `.map(x => x.split(/\:{0,1} +(?=\d)/))` —
JavaScript `split` splits at EVERY match of the regex — and `.reduce`
assigning `o[k[0]] = k[1]`.  We embed strings as `List Char`. -/

/-- Whether `pat` is a prefix of the list (JavaScript indexOf-at-0). -/
def hasPrefixL : List Char → List Char → Bool
  | [], _ => true
  | _ :: _, [] => false
  | p :: ps, c :: cs => p == c && hasPrefixL ps cs

/-- JavaScript `String.prototype.replace` with a string pattern: replace
only the first occurrence of `pat` by `rep`. -/
def replaceFirstL (pat rep : List Char) : List Char → List Char
  | [] => []
  | c :: cs =>
      if hasPrefixL pat (c :: cs) then rep ++ (c :: cs).drop pat.length
      else c :: replaceFirstL pat rep cs

/-- JavaScript `split("\r\n")`: cut at every CRLF, left to right. -/
def splitCRLF : List Char → List (List Char)
  | [] => [[]]
  | '\r' :: '\n' :: rest => [] :: splitCRLF rest
  | c :: rest =>
      match splitCRLF rest with
      | [] => [[c]]
      | l :: ls => (c :: l) :: ls

/-- Regex test `" 0$"`: the line ends with a space then the digit zero. -/
def endsSpaceZero (l : List Char) : Bool :=
  match l.reverse with
  | '0' :: ' ' :: _ => true
  | _ => false

/-- Regex test `"\d$"`: the line's last character is a decimal digit. -/
def lastIsDigit (l : List Char) : Bool :=
  match l.reverse with
  | c :: _ => c.isDigit
  | [] => false

/-- The source's filter: drop a line ending `" 0"` (Test 1), then drop a
line whose final character is not a digit (Test 2). -/
def keepLine (l : List Char) : Bool := !endsSpaceZero l && lastIsDigit l

/-- The optional leading `\:{0,1}` of the split regex: consume one colon
when present. -/
def colonStrip : List Char → List Char
  | [] => []
  | c :: t => if c = ':' then t else c :: t

/-- The greedy `" +"`: count and drop the maximal leading run of spaces. -/
def spanSpaces : List Char → Nat × List Char
  | [] => (0, [])
  | c :: t =>
      if c = ' ' then
        let nr := spanSpaces t
        (nr.1 + 1, nr.2)
      else (0, c :: t)

/-- A match of `/\:{0,1} +(?=\d)/` anchored at the head of the list:
optionally one colon, then at least one space (the run is maximal: with
backtracking, a shorter run would be followed by a space, not a digit),
succeeding exactly when the character after the run is a digit.  Returns
the remainder starting at that digit (the lookahead is not consumed). -/
def matchHere (l : List Char) : Option (List Char) :=
  let nr := spanSpaces (colonStrip l)
  if nr.1 = 0 then none
  else
    match nr.2 with
    | [] => none
    | c :: t => if c.isDigit then some (c :: t) else none

/-- The leftmost match of the regex in the list: the text before it and
the remainder after it (JavaScript regex scanning, position 0 upward). -/
def findMatch : List Char → Option (List Char × List Char)
  | [] => none
  | c :: t =>
      match matchHere (c :: t) with
      | some rest => some ([], rest)
      | none =>
          match findMatch t with
          | some (pre, rest) => some (c :: pre, rest)
          | none => none

theorem spanSpaces_len (l : List Char) :
    (spanSpaces l).1 + (spanSpaces l).2.length = l.length := by
  induction l with
  | nil => rfl
  | cons c t ih =>
      by_cases h : c = ' '
      · simp only [spanSpaces, h, if_true, List.length_cons]
        omega
      · simp [spanSpaces, h]

theorem colonStrip_len (l : List Char) : (colonStrip l).length ≤ l.length := by
  cases l with
  | nil => exact Nat.le_refl 0
  | cons c t =>
      by_cases h : c = ':' <;> simp [colonStrip, h]

theorem matchHere_lt (l r : List Char) (h : matchHere l = some r) : r.length < l.length := by
  have hlen := spanSpaces_len (colonStrip l)
  have hc := colonStrip_len l
  simp only [matchHere] at h
  rcases hsp : spanSpaces (colonStrip l) with ⟨n, r0⟩
  rw [hsp] at h hlen
  cases n with
  | zero => exact absurd h (by simp)
  | succ n =>
      cases r0 with
      | nil => exact absurd h (by simp)
      | cons c t =>
          by_cases hd : c.isDigit
          · simp only [hd, if_true] at h
            obtain rfl : c :: t = r := by
              simpa using h
            simp at hlen
            simp only [List.length_cons] at hlen ⊢
            omega
          · exact absurd h (by simp [hd])

theorem findMatch_rest_lt (l pre rest : List Char)
    (h : findMatch l = some (pre, rest)) : rest.length < l.length := by
  induction l generalizing pre rest with
  | nil => exact absurd h (by simp [findMatch])
  | cons c t ih =>
      unfold findMatch at h
      cases hm : matchHere (c :: t) with
      | some r =>
          rw [hm] at h
          simp only [Option.some.injEq, Prod.mk.injEq] at h
          rw [← h.2]
          exact matchHere_lt _ _ hm
      | none =>
          rw [hm] at h
          cases hf : findMatch t with
          | none => rw [hf] at h; exact absurd h (by simp)
          | some pr =>
              obtain ⟨p2, r2⟩ := pr
              rw [hf] at h
              simp only [Option.some.injEq, Prod.mk.injEq] at h
              rw [← h.2]
              exact Nat.lt_trans (ih _ _ hf) (by simp)

/-- JavaScript `x.split(regex)` with explicit fuel; the fuel only needs
to reach the list's length (each match consumes at least one space). -/
def jsSplitRxF : Nat → List Char → List (List Char)
  | 0, l => [l]
  | fuel + 1, l =>
      match findMatch l with
      | none => [l]
      | some (pre, rest) => pre :: jsSplitRxF fuel rest

/-- `x.split(/\:{0,1} +(?=\d)/)`: the segments between the matches. -/
def jsSplitRx (l : List Char) : List (List Char) := jsSplitRxF l.length l

theorem jsSplitRxF_irrel (f1 : Nat) :
    ∀ (f2 : Nat) (l : List Char), l.length ≤ f1 → l.length ≤ f2 →
      jsSplitRxF f1 l = jsSplitRxF f2 l := by
  induction f1 with
  | zero =>
      intro f2 l h1 _
      have hl : l = [] := List.length_eq_zero.mp (Nat.le_zero.mp h1)
      subst hl
      cases f2 with
      | zero => rfl
      | succ f2 => rfl
  | succ f1 ih =>
      intro f2 l h1 h2
      cases f2 with
      | zero =>
          have hl : l = [] := List.length_eq_zero.mp (Nat.le_zero.mp h2)
          subst hl
          rfl
      | succ f2 =>
          cases hfm : findMatch l with
          | none => simp [jsSplitRxF, hfm]
          | some pr =>
              obtain ⟨pre, rest⟩ := pr
              have hr := findMatch_rest_lt l pre rest hfm
              simp only [jsSplitRxF, hfm]
              rw [ih f2 rest (by omega) (by omega)]

/-- One-step unfolding of `jsSplitRx` by its leftmost match. -/
theorem jsSplitRx_unfold (l : List Char) :
    jsSplitRx l =
      match findMatch l with
      | none => [l]
      | some (pre, rest) => pre :: jsSplitRx rest := by
  cases hfm : findMatch l with
  | none =>
      cases l with
      | nil => rfl
      | cons c t => simp [jsSplitRx, jsSplitRxF, hfm]
  | some pr =>
      obtain ⟨pre, rest⟩ := pr
      cases l with
      | nil => exact absurd hfm (by simp [findMatch])
      | cons c t =>
          have hr := findMatch_rest_lt _ _ _ hfm
          simp only [List.length_cons] at hr
          simp only [jsSplitRx, List.length_cons, jsSplitRxF, hfm]
          rw [jsSplitRxF_irrel t.length rest.length rest (by omega) (Nat.le_refl _)]

/-- The source's map step: `k = x.split(...)`, then the reduce reads
`k[0]` (the key) and `k[1]` (the value, `undefined` when absent). -/
def entryOf (l : List Char) : List Char × Option (List Char) :=
  match jsSplitRx l with
  | [] => ([], none)
  | k :: rest => (k, rest.head?)

/-- The key/value rule of the amended claim, stated positionally: the
key is the text before the first match; the value is the text strictly
between the first and second matches, all the text after the first
match when no second exists, and absent when the line has no match. -/
def entrySpec (l : List Char) : List Char × Option (List Char) :=
  match findMatch l with
  | none => (l, none)
  | some (pre, rest) =>
      (pre, some (match findMatch rest with
        | none => rest
        | some (pre2, _) => pre2))

theorem entryOf_eq_entrySpec (l : List Char) : entryOf l = entrySpec l := by
  unfold entryOf entrySpec
  rw [jsSplitRx_unfold l]
  cases hfm : findMatch l with
  | none => rfl
  | some pr =>
      obtain ⟨pre, rest⟩ := pr
      simp only []
      rw [jsSplitRx_unfold rest]
      cases hfm2 : findMatch rest with
      | none => rfl
      | some pr2 =>
          obtain ⟨pre2, r2⟩ := pr2
          rfl

/-- The four-character literal `"\\r\\n"` the source's `replace` call
searches for (backslash, r, backslash, n). -/
def escCRLF : List Char := ['\\', 'r', '\\', 'n']

/-- The CRLF the source's `replace` call substitutes and `split` cuts at. -/
def crlf : List Char := ['\r', '\n']

/-- JavaScript object assignment `o[k] = v`: overwrite the value in
place when the key exists, append the pair otherwise. -/
def objUpsert (o : List (List Char × Option (List Char))) (k : List Char)
    (v : Option (List Char)) : List (List Char × Option (List Char)) :=
  if o.any fun p => decide (p.1 = k) then
    o.map fun p => if p.1 = k then (k, v) else p
  else o ++ [(k, v)]

/-- Reading `o[k]` from the object: the stored value when the key is
present (itself possibly `undefined`, the inner `none`). -/
def objLookup (o : List (List Char × Option (List Char))) (k : List Char) :
    Option (Option (List Char)) :=
  match o with
  | [] => none
  | p :: t => if p.1 = k then some p.2 else objLookup t k

/-- The source's `clean_data`, one stage per line of the pipeline:
first-occurrence replace of the literal backslash-r-backslash-n by
CRLF, split on CRLF, the two regex filters, the regex split mapped to
`(k[0], k[1])`, and the reduce building the object. -/
def clean_data (s : List Char) : List (List Char × Option (List Char)) :=
  (((splitCRLF (replaceFirstL escCRLF crlf s)).filter keepLine).map entryOf).foldl
    (fun o kv => objUpsert o kv.1 kv.2) []

theorem mem_objUpsert (o : List (List Char × Option (List Char))) (k : List Char)
    (v : Option (List Char)) (e : List Char × Option (List Char))
    (h : e ∈ objUpsert o k v) : e ∈ o ∨ e = (k, v) := by
  unfold objUpsert at h
  split at h
  · rcases List.mem_map.mp h with ⟨p, hp, he⟩
    by_cases hpk : p.1 = k
    · rw [if_pos hpk] at he
      exact Or.inr he.symm
    · rw [if_neg hpk] at he
      exact Or.inl (he ▸ hp)
  · rcases List.mem_append.mp h with h1 | h1
    · exact Or.inl h1
    · exact Or.inr (List.mem_singleton.mp h1)

theorem mem_foldl_objUpsert (ps : List (List Char × Option (List Char))) :
    ∀ (o : List (List Char × Option (List Char))) (e : List Char × Option (List Char)),
      e ∈ ps.foldl (fun o kv => objUpsert o kv.1 kv.2) o → e ∈ o ∨ e ∈ ps := by
  induction ps with
  | nil => exact fun o e h => Or.inl h
  | cons p t ih =>
      intro o e h
      rcases ih _ e h with h1 | h1
      · rcases mem_objUpsert _ _ _ _ h1 with h2 | h2
        · exact Or.inl h2
        · exact Or.inr (List.mem_cons.mpr (Or.inl (by rw [h2])))
      · exact Or.inr (List.mem_cons.mpr (Or.inr h1))

theorem objLookup_objUpsert (o : List (List Char × Option (List Char)))
    (k : List Char) (v : Option (List Char)) :
    objLookup (objUpsert o k v) k = some v := by
  induction o with
  | nil => simp [objUpsert, objLookup]
  | cons p t ih =>
      by_cases hpk : p.1 = k
      · simp [objUpsert, objLookup, hpk]
      · by_cases hat : t.any fun q => decide (q.1 = k)
        · simp only [objUpsert, List.any_cons, hpk, decide_False, Bool.false_or, hat,
            if_true, List.map_cons, if_neg hpk] at ih ⊢
          simpa [objLookup, hpk] using ih
        · simp only [objUpsert, List.any_cons, hpk, decide_False, Bool.false_or,
            Bool.not_eq_true] at ih ⊢
          rw [if_neg (by simp [hat]), List.cons_append]
          rw [if_neg (by simp [hat])] at ih
          simpa [objLookup, hpk] using ih

/-- The concrete line the claim and the code read differently: the regex
matches both before the `1` and before the `2`, so `split` returns
three segments and `k[1]` is only the middle one. -/
def lineC10 : List Char := ['a', ' ', '1', ' ', 'b', ' ', '2']

/-- C10 counterexample: on the single line `a 1 b 2` the entry's value
is `1 b` — the segment between the first and second matches — not
`1 b 2`, the whole text after the first whitespace run, as claimed. -/
theorem clean_data_second_segment :
    clean_data lineC10 = [(['a'], some ['1', ' ', 'b'])] ∧
      objLookup (clean_data lineC10) ['a'] ≠ some (some ['1', ' ', 'b', ' ', '2']) := by
  decide

/-- C10 as amended: after the first-occurrence escape replace and the
CRLF split, a line survives iff it does not end in `" 0"` and its last
character is a digit (as claimed); but each surviving line is split at
EVERY colon-optional whitespace run preceding a digit — the key is the
text before the first such run and the value the segment strictly
between the first and second runs (everything after the first when no
second exists, undefined when there is none) — and a later line with
the same key overwrites the earlier entry in place. -/
theorem clean_data_amended (s : List Char) :
    clean_data s =
      (((splitCRLF (replaceFirstL escCRLF crlf s)).filter keepLine).map entrySpec).foldl
        (fun o kv => objUpsert o kv.1 kv.2) []
    ∧ (∀ k v, (k, v) ∈ clean_data s →
        ∃ x, x ∈ splitCRLF (replaceFirstL escCRLF crlf s) ∧ keepLine x = true ∧
          entrySpec x = (k, v))
    ∧ (∀ o k v, objLookup (objUpsert o k v) k = some v) := by
  refine ⟨?_, ?_, fun o k v => objLookup_objUpsert o k v⟩
  · unfold clean_data
    rw [show entryOf = entrySpec from funext entryOf_eq_entrySpec]
  · intro k v h
    rcases mem_foldl_objUpsert _ _ _ h with h1 | h1
    · exact absurd h1 (List.not_mem_nil _)
    · rcases List.mem_map.mp h1 with ⟨x, hx, he⟩
      rcases List.mem_filter.mp hx with ⟨hx1, hx2⟩
      exact ⟨x, hx1, hx2, by rw [← entryOf_eq_entrySpec, he]⟩

/-- Witness for the amended C10 theorem: the line `a 1 b 2` yields the
key `a` with value `1 b`, through the positional description. -/
theorem clean_data_amended_witness :
    ∃ x, x ∈ splitCRLF (replaceFirstL escCRLF crlf lineC10) ∧ keepLine x = true ∧
      entrySpec x = (['a'], some ['1', ' ', 'b']) :=
  (clean_data_amended lineC10).2.1 ['a'] (some ['1', ' ', 'b']) (by decide)

/-! ## Typing layer: the solver core modelled from the spec

`main.d.ts` only declares `Solve`, `ReformatLP` and `lastSolvedModel`;
the implementations are not part of the repository snapshot.  The
definitions below are therefore modelled from the spec (sections 3-4,
6-7) and carry that provenance in their doc comments. -/

/-- `IModelVariableConstraint` of `main.d.ts`: optional min/max/equal. -/
structure VarConstraint where
  min : Option ℚ
  max : Option ℚ
  equal : Option ℚ
deriving DecidableEq, Repr

/-- `IModelOptions` of `main.d.ts`, including the deprecated
`useMIRCuts` knob. -/
structure ModelOptions where
  tolerance : Option ℚ
  timeout : Option ℚ
  useMIRCuts : Option Bool
  exitOnCycles : Option Bool
deriving DecidableEq, Repr

/-- The `opType` field: `"max" | "min"`. -/
inductive OpType where
  | max
  | min
deriving DecidableEq, Repr

/-- `IModel` of `main.d.ts`: objective, direction, constraint records,
variable identity relations (the `variables` field of the source,
spelled `vars` here because `variables` is a reserved word), domain
flag lists and options. -/
structure LPModel where
  optimize : String
  opType : OpType
  constraints : List (String × VarConstraint)
  vars : List (String × List (String × ℚ))
  ints : List String
  binaries : List String
  unrestricted : List String
  options : Option ModelOptions
deriving DecidableEq, Repr

/-- Modelled from the spec (section 3): the Standard Form Tableau — a
cost row, the constraint matrix and the right-hand side. -/
structure Tableau where
  cost : List ℚ
  rows : List (List ℚ)
  rhs : List ℚ
deriving DecidableEq, Repr

/-- Matrix entry `A[i][j]` (0 outside the stored lists). -/
def colEntry (T : Tableau) (i j : Nat) : ℚ := (T.rows.getD i []).getD j 0

/-- Right-hand side entry `b[i]`. -/
def rhsEntry (T : Tableau) (i : Nat) : ℚ := T.rhs.getD i 0

/-- Modelled from the spec (4.3): entering candidates under Dantzig's
rule — a column with negative reduced cost attaining the minimum over
all negative reduced costs. -/
def EnteringCand (c : List ℚ) (j : Nat) : Prop :=
  j < c.length ∧ c.getD j 0 < 0 ∧
    ∀ k, k < c.length → c.getD k 0 < 0 → c.getD j 0 ≤ c.getD k 0

/-- Modelled from the spec (4.3, 4.4): the entering column — the
most-negative reduced cost, ties broken by the smallest index. -/
def IsEntering (c : List ℚ) (j : Nat) : Prop :=
  EnteringCand c j ∧ ∀ k, EnteringCand c k → j ≤ k

/-- Modelled from the spec (4.3): leaving candidates — rows with a
positive pivot-column entry minimizing the rhs/pivot quotient (stated
by cross-multiplication, the entries being positive). -/
def LeavingCand (T : Tableau) (j i : Nat) : Prop :=
  i < T.rows.length ∧ 0 < colEntry T i j ∧
    ∀ i2, i2 < T.rows.length → 0 < colEntry T i2 j →
      rhsEntry T i * colEntry T i2 j ≤ rhsEntry T i2 * colEntry T i j

/-- Modelled from the spec (4.3): the leaving row — the minimum
quotient, ties broken by the smallest index (Bland's tiebreak). -/
def IsLeaving (T : Tableau) (j i : Nat) : Prop :=
  LeavingCand T j i ∧ ∀ i2, LeavingCand T j i2 → i ≤ i2

/-- Scale the pivot row by the pivot element. -/
def scaleRow (r : List ℚ) (piv : ℚ) : List ℚ := r.map (· / piv)

/-- Subtract `f` times the scaled pivot row from a row. -/
def elimRow (r p : List ℚ) (f : ℚ) : List ℚ := r.zipWith (fun a b => a - f * b) p

/-- The Gauss-Jordan pivot on row `i`, column `j`. -/
def pivotTab (T : Tableau) (i j : Nat) : Tableau :=
  let piv := colEntry T i j
  let prow := scaleRow (T.rows.getD i []) piv
  let prhs := rhsEntry T i / piv
  { cost := elimRow T.cost prow (T.cost.getD j 0)
    rows := (List.range T.rows.length).map fun i2 =>
      if i2 = i then prow
      else elimRow (T.rows.getD i2 []) prow (colEntry T i2 j)
    rhs := (List.range T.rows.length).map fun i2 =>
      if i2 = i then prhs
      else rhsEntry T i2 - colEntry T i2 j * prhs }

/-- Modelled from the spec (4.3): one Simplex pivot — an entering
column and a leaving row chosen by the deterministic rules, then the
Gauss-Jordan update. -/
inductive SimplexStep : Tableau → Tableau → Prop where
  | pivot (T : Tableau) (i j : Nat) (hj : IsEntering T.cost j) (hi : IsLeaving T j i) :
      SimplexStep T (pivotTab T i j)

theorem isEntering_unique (c : List ℚ) (j1 j2 : Nat)
    (h1 : IsEntering c j1) (h2 : IsEntering c j2) : j1 = j2 :=
  Nat.le_antisymm (h1.2 _ h2.1) (h2.2 _ h1.1)

theorem isLeaving_unique (T : Tableau) (j i1 i2 : Nat)
    (h1 : IsLeaving T j i1) (h2 : IsLeaving T j i2) : i1 = i2 :=
  Nat.le_antisymm (h1.2 _ h2.1) (h2.2 _ h1.1)

/-- The spec's tiebreaks make each pivot unique: the step relation is
deterministic. -/
theorem simplexStep_det (T U V : Tableau)
    (hU : SimplexStep T U) (hV : SimplexStep T V) : U = V := by
  cases hU with
  | pivot i1 j1 hj1 hi1 =>
      cases hV with
      | pivot i2 j2 hj2 hi2 =>
          obtain rfl : j1 = j2 := isEntering_unique _ _ _ hj1 hj2
          obtain rfl : i1 = i2 := isLeaving_unique _ _ _ _ hi1 hi2
          rfl

/-- A tableau from which no pivot is possible (Simplex has stopped). -/
def TerminalTab (T : Tableau) : Prop := ∀ U, ¬ SimplexStep T U

/-- Runs of a deterministic step relation are unique: two maximal runs
from the same tableau end in the same tableau. -/
theorem simplex_runs_unique (T U V : Tableau)
    (hU : Relation.ReflTransGen SimplexStep T U) (hTermU : TerminalTab U)
    (hTermV : TerminalTab V) :
    Relation.ReflTransGen SimplexStep T V → U = V := by
  induction hU using Relation.ReflTransGen.head_induction_on with
  | refl =>
      intro hV
      rcases Relation.ReflTransGen.cases_head hV with h | h
      · exact h
      · obtain ⟨W, hW, _⟩ := h
        exact absurd hW (hTermU W)
  | head hstep hrest ih =>
      intro hV
      rcases Relation.ReflTransGen.cases_head hV with h | h
      · exact absurd (h ▸ hstep) (hTermV _)
      · obtain ⟨d, hd, hrest2⟩ := h
        obtain rfl := simplexStep_det _ _ _ hstep hd
        exact ih hrest2

/-- Append a name when unseen: dense index on first encounter (spec
section 9, dynamic keys to structural tables). -/
def addName (acc : List String) (n : String) : List String :=
  if n ∈ acc then acc else acc ++ [n]

/-- The internal variables in order of first encounter across the
`variables` table's linear combinations. -/
def internalVars (m : LPModel) : List String :=
  ((m.vars.map fun p => p.2.map Prod.fst).flatten).foldl addName []

/-- The linear combination defining a solution variable (empty when the
name has no definition). -/
def comboOf (m : LPModel) (n : String) : List (String × ℚ) :=
  (List.lookup n m.vars).getD []

/-- Modelled from the spec (4.2): `max` problems negate the costs so
Simplex minimizes internally. -/
def objSign (m : LPModel) : ℚ :=
  match m.opType with
  | OpType.max => -1
  | OpType.min => 1

/-- Modelled from the spec (4.2): the cost row read off the linear
combination defining `optimize`, negated for `max`. -/
def objCost (m : LPModel) : List ℚ :=
  (internalVars m).map fun n => objSign m * (List.lookup n (comboOf m m.optimize)).getD 0

/-- Modelled from the spec (4.2): a constraint row — the defining
combination when the constrained name is a solution variable, else the
unit row of the raw internal variable. -/
def rowOf (m : LPModel) (nm : String) : List ℚ :=
  match List.lookup nm m.vars with
  | some combo => (internalVars m).map fun n => (List.lookup n combo).getD 0
  | none => (internalVars m).map fun n => if n = nm then 1 else 0

/-- The right-hand side of a constraint record: `equal`, else `max`,
else `min`, else 0. -/
def rhsOf (c : VarConstraint) : ℚ :=
  match c.equal, c.max, c.min with
  | some e, _, _ => e
  | none, some b, _ => b
  | none, none, some a => a
  | none, none, none => 0

/-- Modelled from the spec (4.2, simplified fragment): the Standard
Form construction — the cost row from the objective combination, one
row per constraint extended with one slack column each, and the sign
flip for rows whose right-hand side is negative.  The surplus versus
slack distinction and the artificial columns of the full construction
are outside the modelled fragment; the function reads nothing from
`options`. -/
def preprocess (m : LPModel) : Tableau :=
  let ncons := m.constraints.length
  let baseRows := m.constraints.map fun p => rowOf m p.1
  let slacked := (List.range ncons).zipWith
    (fun k r => r ++ (List.range ncons).map fun k2 => if k2 = k then (1 : ℚ) else 0)
    baseRows
  let rhs0 := m.constraints.map fun p => rhsOf p.2
  let fixed := (slacked.zip rhs0).map fun pr =>
    if pr.2 < 0 then (pr.1.map fun x => -x, -pr.2) else pr
  { cost := objCost m ++ (List.range ncons).map fun _ => (0 : ℚ)
    rows := fixed.map Prod.fst
    rhs := fixed.map Prod.snd }

/-- Column `j` of the tableau. -/
def stdColumn (T : Tableau) (j : Nat) : List ℚ := T.rows.map fun r => r.getD j 0

/-- The row index of the single `1` of a unit column, if the column is
one. -/
def unitRowIdx (col : List ℚ) : Option Nat :=
  if col.filter (fun x => decide (x ≠ 0)) = [1] then
    col.findIdx? fun x => decide (x = 1)
  else none

/-- The basic-solution value of column `j`: the rhs of its unit row
when basic, 0 otherwise. -/
def stdValue (T : Tableau) (j : Nat) : ℚ :=
  match unitRowIdx (stdColumn T j) with
  | some i => rhsEntry T i
  | none => 0

/-- The dense index of an internal variable. -/
def idxOfVar (m : LPModel) (n : String) : Nat := (internalVars m).indexOf n

/-- Modelled from the spec (4.5): a declared solution variable's value,
`Σ coeff · x_std[internal]`. -/
def assembleValue (m : LPModel) (T : Tableau) (combo : List (String × ℚ)) : ℚ :=
  (combo.map fun p => p.2 * stdValue T (idxOfVar m p.1)).sum

/-- The Solution object of `main.d.ts`: status, objective value, and
the variable entries. -/
structure SolutionOut where
  feasible : Bool
  result : ℚ
  vars : List (String × ℚ)
deriving DecidableEq, Repr

/-- Modelled from the spec (4.5, 6): the Solution Assembler — `result`
is the objective evaluated at the assembled values; a variable entry is
emitted when its value's magnitude exceeds `precision`, or always when
`full` is set (which then also includes the zero-valued ones).  The
Infeasible/Unbounded status branches are outside the modelled fragment,
so `feasible` is the default `true`. -/
def assemble (m : LPModel) (T : Tableau) (precision : ℚ) (full : Bool) : SolutionOut :=
  { feasible := true
    result := assembleValue m T (comboOf m m.optimize)
    vars := m.vars.filterMap fun p =>
      if precision < |assembleValue m T p.2| ∨ full = true then
        some (p.1, assembleValue m T p.2)
      else none }

/-- Modelled from the spec (4.3, 4.4): a complete `Solve` run, stated
relationally — a maximal Simplex run from the preprocessed tableau,
then the assembler.  The relation leaves the pivot CHOICES to the
`IsEntering`/`IsLeaving` rules; determinism is a theorem about those
rules, not baked into a function. -/
def SolveRel (m : LPModel) (precision : ℚ) (full : Bool) (s : SolutionOut) : Prop :=
  ∃ U, Relation.ReflTransGen SimplexStep (preprocess m) U ∧ TerminalTab U ∧
    s = assemble m U precision full

/-- C4: `Solve` is deterministic — any two complete runs on the same
model with the same precision and `full` settings produce equal
Solution objects, equal in every variable entry and not merely in the
objective; the spec's least-index tiebreaks make every pivot unique. -/
theorem Solve_deterministic (m : LPModel) (precision : ℚ) (full : Bool)
    (s1 s2 : SolutionOut) (h1 : SolveRel m precision full s1)
    (h2 : SolveRel m precision full s2) :
    s1 = s2 ∧ ∀ n, List.lookup n s1.vars = List.lookup n s2.vars := by
  obtain ⟨U1, hr1, ht1, rfl⟩ := h1
  obtain ⟨U2, hr2, ht2, rfl⟩ := h2
  obtain rfl : U1 = U2 := simplex_runs_unique _ _ _ hr1 ht1 ht2 hr2
  exact ⟨rfl, fun n => rfl⟩

/-- A one-variable minimization model whose preprocessed tableau is
already optimal (no negative reduced cost). -/
def m0 : LPModel :=
  { optimize := "obj", opType := OpType.min, constraints := [],
    vars := [("obj", [("x", 1)])], ints := [], binaries := [],
    unrestricted := [], options := none }

theorem m0_cost : (preprocess m0).cost = [1] := by
  norm_num [preprocess, m0, objCost, internalVars, comboOf, addName, objSign,
    List.lookup]

theorem m0_terminal : TerminalTab (preprocess m0) := by
  intro U h
  cases h with
  | pivot i j hj hi =>
      obtain ⟨⟨hjlen, hneg, _⟩, _⟩ := hj
      rw [m0_cost] at hjlen hneg
      obtain rfl : j = 0 := Nat.lt_one_iff.mp (by simpa using hjlen)
      norm_num at hneg

/-- The solution of the concrete run on `m0`. -/
def s0 : SolutionOut := assemble m0 (preprocess m0) (1 / 1000000000) false

/-- Witness for C4 at a concrete input: the terminal zero-step run on
`m0` satisfies `SolveRel`, and the theorem applies to it. -/
theorem Solve_deterministic_witness :
    SolveRel m0 (1 / 1000000000) false s0 ∧ s0 = s0 := by
  have H : SolveRel m0 (1 / 1000000000) false s0 :=
    ⟨preprocess m0, Relation.ReflTransGen.refl, m0_terminal, rfl⟩
  exact ⟨H, (Solve_deterministic m0 (1 / 1000000000) false s0 s0 H H).1⟩

/-- Computable Dantzig entering rule: first index attaining the minimum
among the negative reduced costs. -/
def enteringIdxD (c : List ℚ) : Option Nat :=
  let idxs := (List.range c.length).filter fun j => decide (c.getD j 0 < 0)
  idxs.find? fun j => idxs.all fun k => decide (c.getD j 0 ≤ c.getD k 0)

/-- Computable Bland entering rule: first index with negative cost. -/
def enteringIdxB (c : List ℚ) : Option Nat :=
  (List.range c.length).find? fun j => decide (c.getD j 0 < 0)

/-- Computable leaving rule: first row attaining the minimum quotient
among rows with a positive pivot-column entry. -/
def leavingIdx (T : Tableau) (j : Nat) : Option Nat :=
  let idxs := (List.range T.rows.length).filter fun i => decide (0 < colEntry T i j)
  idxs.find? fun i => idxs.all fun i2 =>
    decide (rhsEntry T i * colEntry T i2 j ≤ rhsEntry T i2 * colEntry T i j)

/-- One computable Simplex step under Dantzig's or Bland's entering
rule; `none` when optimal or when the ratio test finds no row. -/
def stepFn (bland : Bool) (T : Tableau) : Option Tableau :=
  match (if bland then enteringIdxB T.cost else enteringIdxD T.cost) with
  | none => none
  | some j =>
      match leavingIdx T j with
      | none => none
      | some i => some (pivotTab T i j)

/-- Iterate `stepFn` within a fuel budget. -/
def runSimplex : Nat → Bool → Tableau → Tableau
  | 0, _, T => T
  | f + 1, bland, T =>
      match stepFn bland T with
      | none => T
      | some T2 => runSimplex f bland T2

/-- Modelled from the spec (4.3): run Simplex under Dantzig's rule
within the iteration budget `50 · max(m, n)`; with `exitOnCycles =
true` (the default) stop there, otherwise continue under Bland's rule,
which guarantees termination. -/
def finalTab (m : LPModel) : Tableau :=
  let T := preprocess m
  let fuel := 50 * max T.rows.length T.cost.length
  let exitC := (m.options.bind fun o => o.exitOnCycles).getD true
  let T1 := runSimplex fuel false T
  if exitC then T1 else runSimplex fuel true T1

/-- Modelled from the spec (6): `Solve(model, precision?, full?)` as
the computable pipeline — preprocess, run Simplex, assemble. -/
def Solve (m : LPModel) (precision : ℚ) (full : Bool) : SolutionOut :=
  assemble m (finalTab m) precision full

/-- C5: the Solution returned by `Solve` has an entry for a declared
solution variable exactly when the magnitude of its assembled value
exceeds `precision`; with the `full` flag every declared variable —
zero-valued ones included — has an entry. -/
theorem Solve_entries (m : LPModel) (precision : ℚ) (n : String) :
    ((∃ v, (n, v) ∈ (Solve m precision false).vars) ↔
      ∃ combo, (n, combo) ∈ m.vars ∧
        precision < |assembleValue m (finalTab m) combo|)
    ∧ ((∃ v, (n, v) ∈ (Solve m precision true).vars) ↔
      ∃ combo, (n, combo) ∈ m.vars) := by
  constructor
  · constructor
    · rintro ⟨v, hv⟩
      rcases List.mem_filterMap.mp hv with ⟨⟨n2, combo⟩, hmem, hf⟩
      by_cases hcond : precision < |assembleValue m (finalTab m) combo|
      · refine ⟨combo, ?_, hcond⟩
        simp only [hcond, true_or, if_true, Option.some.injEq, Prod.mk.injEq] at hf
        rw [hf.1] at hmem
        exact hmem
      · simp [hcond] at hf
    · rintro ⟨combo, hmem, hcond⟩
      exact ⟨assembleValue m (finalTab m) combo,
        List.mem_filterMap.mpr ⟨(n, combo), hmem, by simp [hcond]⟩⟩
  · constructor
    · rintro ⟨v, hv⟩
      rcases List.mem_filterMap.mp hv with ⟨⟨n2, combo⟩, hmem, hf⟩
      simp only [or_true, if_true, Option.some.injEq, Prod.mk.injEq] at hf
      rw [hf.1] at hmem
      exact ⟨combo, hmem⟩
    · rintro ⟨combo, hmem⟩
      exact ⟨assembleValue m (finalTab m) combo,
        List.mem_filterMap.mpr ⟨(n, combo), hmem, by simp⟩⟩

/-- The spec's `ValidationError` kinds (section 6). -/
inductive ValidationError where
  | MissingObjective
  | UnknownVariable
  | ConflictingDomain
  | MalformedConstraint
deriving DecidableEq, Repr

/-- An `equal` bound inconsistent with `min`/`max` (spec section 3's
invariant). -/
def badConstraint (c : VarConstraint) : Bool :=
  match c.equal with
  | none => false
  | some e =>
      (match c.min with | some a => decide (e < a) | none => false) ||
      (match c.max with | some b => decide (b < e) | none => false)

/-- Modelled from the spec (6): the structural validations, producing
the list of violated kinds. -/
def validateModel (m : LPModel) : List ValidationError :=
  (if (List.lookup m.optimize m.vars).isNone then [ValidationError.MissingObjective]
    else []) ++
  (if m.constraints.any (fun p => (List.lookup p.1 m.vars).isNone &&
      !((internalVars m).contains p.1)) then [ValidationError.UnknownVariable]
    else []) ++
  (if m.binaries.any (fun n => m.unrestricted.contains n) then
      [ValidationError.ConflictingDomain]
    else []) ++
  (if m.constraints.any (fun p => badConstraint p.2) then
      [ValidationError.MalformedConstraint]
    else [])

/-- The process-wide state of `main.d.ts`: `lastSolvedModel`, with
`none` as the initial sentinel. -/
structure SolverState where
  lastSolvedModel : Option LPModel
deriving DecidableEq, Repr

/-- Modelled from the spec (6, 7): `Solve` with the process-wide state
threaded explicitly — validation failures raise (`Except.error`) and
leave the state alone; a successful return replaces `lastSolvedModel`
wholesale with the input model. -/
def SolveWithState (m : LPModel) (precision : ℚ) (full : Bool) (st : SolverState) :
    Except (List ValidationError) SolutionOut × SolverState :=
  if validateModel m = [] then (Except.ok (Solve m precision full), ⟨some m⟩)
  else (Except.error (validateModel m), st)

/-- C7: on every successful `Solve` the state's `lastSolvedModel` is
the input model itself (replaced wholesale, whatever it held before);
on a validation error the whole state is returned unchanged. -/
theorem lastSolvedModel_update (m : LPModel) (precision : ℚ) (full : Bool)
    (st : SolverState) :
    (validateModel m = [] →
      (SolveWithState m precision full st).2 = ⟨some m⟩ ∧
        (SolveWithState m precision full st).1 = Except.ok (Solve m precision full))
    ∧ (validateModel m ≠ [] →
      (SolveWithState m precision full st).2 = st ∧
        (SolveWithState m precision full st).1 = Except.error (validateModel m)) := by
  by_cases h : validateModel m = [] <;> simp [SolveWithState, h]

/-- A model failing validation: no `variables` entry defines `obj`. -/
def mBad : LPModel :=
  { optimize := "obj", opType := OpType.min, constraints := [], vars := [],
    ints := [], binaries := [], unrestricted := [], options := none }

/-- Witness for C7 at concrete inputs: solving the valid `m0` replaces
`lastSolvedModel` with `m0`; solving the invalid `mBad` leaves the
state unchanged. -/
theorem lastSolvedModel_update_witness :
    (SolveWithState m0 1 false ⟨none⟩).2 = ⟨some m0⟩ ∧
      (SolveWithState mBad 1 false ⟨some m0⟩).2 = ⟨some m0⟩ :=
  ⟨((lastSolvedModel_update m0 1 false ⟨none⟩).1 (by decide)).1,
    ((lastSolvedModel_update mBad 1 false ⟨some m0⟩).2 (by decide)).1⟩

/-- The model with only its `options.useMIRCuts` field set to `b`. -/
def setMIR (m : LPModel) (b : Option Bool) : LPModel :=
  { m with options := some { m.options.getD ⟨none, none, none, none⟩ with useMIRCuts := b } }

/-- C8: `useMIRCuts` is accepted by the options type but ignored — two
models that differ only in that field produce the same Solution, both
through the computable pipeline and through the relational run. -/
theorem useMIRCuts_ignored (m : LPModel) (precision : ℚ) (full : Bool)
    (b1 b2 : Option Bool) :
    Solve (setMIR m b1) precision full = Solve (setMIR m b2) precision full ∧
      ∀ s, SolveRel (setMIR m b1) precision full s ↔
        SolveRel (setMIR m b2) precision full s := by
  rcases m with ⟨o1, o2, o3, o4, o5, o6, o7, opts⟩
  rcases opts with _ | ⟨t1, t2, t3, t4⟩ <;> exact ⟨rfl, fun s => Iff.rfl⟩

/-! ## `ReformatLP`

`main.d.ts` declares the overload pair
`ReformatLP(model: string[]): IModel` and
`ReformatLP(model: IModel): string` — the Model overload returns a
single string, not an array of lines.  The behaviour is modelled from
the spec (4.1, a minimal fragment); the overloading is embedded as a
sum of the two argument shapes, returning into a sum of the possible
JavaScript return shapes. -/

/-- The two argument shapes of the `ReformatLP` overloads. -/
inductive ReformatArg where
  | lines (ls : List String)
  | model (m : LPModel)

/-- The possible return shapes: a Model, a single string, or an array
of lines (the shape the spec claims for the Model overload). -/
inductive ReformatRet where
  | model (m : LPModel)
  | text (s : String)
  | textLines (ls : List String)

/-- Whether the returned value is a single string. -/
def ReformatRet.isText : ReformatRet → Bool
  | .text _ => true
  | _ => false

/-- Whether the returned value is an array of lines. -/
def ReformatRet.isTextLines : ReformatRet → Bool
  | .textLines _ => true
  | _ => false

/-- Parse an objective line `max: name` / `min: name`. -/
def parseObjLine (l : String) : Option (OpType × String) :=
  if l.startsWith "max:" then some (OpType.max, (l.drop 4).trim)
  else if l.startsWith "min:" then some (OpType.min, (l.drop 4).trim)
  else none

/-- Parse a simple constraint line `name <= n`, `name >= n`, `name = n`
with an integer bound. -/
def parseConstraintLine (l : String) : Option (String × VarConstraint) :=
  match l.splitOn " " with
  | [n, "<=", v] => (v.toInt?).map fun i => (n, ⟨none, some (i : ℚ), none⟩)
  | [n, ">=", v] => (v.toInt?).map fun i => (n, ⟨some (i : ℚ), none, none⟩)
  | [n, "=", v] => (v.toInt?).map fun i => (n, ⟨none, none, some (i : ℚ)⟩)
  | _ => none

/-- Modelled from the spec (4.1, a minimal dialect fragment): lines to
Model — the first objective line fixes `optimize`/`opType`, the simple
constraint lines fill `constraints`. -/
def parseLP (ls : List String) : LPModel :=
  let obj := (ls.filterMap parseObjLine).headD (OpType.min, "")
  { optimize := obj.2, opType := obj.1,
    constraints := ls.filterMap parseConstraintLine,
    vars := [(obj.2, [(obj.2, 1)])],
    ints := [], binaries := [], unrestricted := [], options := none }

/-- Emit the lines a constraint record contributes. -/
def emitConstraint (p : String × VarConstraint) : List String :=
  (match p.2.max with | some b => [p.1 ++ " <= " ++ toString b] | none => []) ++
  (match p.2.min with | some a => [p.1 ++ " >= " ++ toString a] | none => []) ++
  (match p.2.equal with | some e => [p.1 ++ " = " ++ toString e] | none => [])

/-- Modelled from the spec (4.1): Model to LP text — but returning ONE
newline-joined string, as the declared overload type
`ReformatLP(model: IModel): string` prescribes. -/
def emitLP (m : LPModel) : String :=
  String.intercalate "\n"
    (((match m.opType with
        | OpType.max => "max: "
        | OpType.min => "min: ") ++ m.optimize) ::
      (m.constraints.map emitConstraint).flatten)

/-- The overloaded `ReformatLP` of `main.d.ts`: lines in, Model out;
Model in, single string out. -/
def ReformatLP : ReformatArg → ReformatRet
  | ReformatArg.lines ls => ReformatRet.model (parseLP ls)
  | ReformatArg.model m => ReformatRet.text (emitLP m)

/-- C6 counterexample: applied to a concrete Model, `ReformatLP`
returns a single string (per the declaration's return type `string`),
not an array of text lines as claimed. -/
theorem reformatLP_returns_string :
    ReformatLP (ReformatArg.model m0) = ReformatRet.text (emitLP m0) ∧
      (ReformatLP (ReformatArg.model m0)).isTextLines = false ∧
      (ReformatLP (ReformatArg.model m0)).isText = true :=
  ⟨rfl, rfl, rfl⟩

/-- C6 as amended: `ReformatLP` is an overloaded parser/emitter pair —
applied to an array of text lines it returns a Model, and applied to a
Model it returns the emitted LP text as one string (the `string` return
type of the declaration), not an array of lines. -/
theorem reformatLP_pair (ls : List String) (m : LPModel) :
    (∃ mm, ReformatLP (ReformatArg.lines ls) = ReformatRet.model mm) ∧
      ∃ s, ReformatLP (ReformatArg.model m) = ReformatRet.text s :=
  ⟨⟨parseLP ls, rfl⟩, ⟨emitLP m, rfl⟩⟩
